import Mathlib

/-!
Verification of the batched-judgment pipeline of the arxiv-agent repository.

The definitions below are a shallow embedding of the Python sources:
  src/arxiv_agent/agents/filter_agent.py
  src/arxiv_agent/agents/scorer_agent.py
  src/arxiv_agent/agents/analyzer_agent.py
  src/arxiv_agent/tools/arxiv_client.py
  src/arxiv_agent/workflow.py

The reasoning-service transport (llm.chat_completion) is external; each
batched stage therefore takes an oracle mapping the batch index to the
outcome of that call: either a raised exception or a response.  A response
is modelled after JSON decoding: either no decodable array/object was
found in the text, or the decoded array of entries, each entry carrying
the optional fields the Python code reads off the decoded dicts.
Python dicts are modelled as insertion-ordered association lists with
last-write-wins updates, matching dict comprehension semantics.
-/

set_option autoImplicit false

namespace ArxivAgent

variable {α β : Type}

/-! ## Data model (src/arxiv_agent/models.py) -/

structure ArxivPaper where
  arxiv_id : String
  title : String
  abstract : String
  authors : List String
  published : Int
  updated : Int
  pdf_url : String
  categories : List String
deriving DecidableEq, Repr

structure FilteredPaper where
  paper : ArxivPaper
  is_relevant : Bool
deriving DecidableEq, Repr

structure FilterResult where
  papers : List FilteredPaper
  total_batches : Nat
  failed_batches : Nat
deriving DecidableEq, Repr

structure ScoredPaper where
  paper : ArxivPaper
  score : Int
  score_justification : String
deriving DecidableEq, Repr

structure ScoreResult where
  papers : List ScoredPaper
  total_batches : Nat
  failed_batches : Nat
deriving DecidableEq, Repr

structure CommunityFeedback where
  paper_id : String
  feedback_summary : String
  sources : List String
deriving DecidableEq, Repr

structure PaperAnalysis where
  paper : ArxivPaper
  score : Int
  score_justification : String
  summary : String
  authors_affiliations : String
  community_feedback : String
  paper_content_summary : String
deriving DecidableEq, Repr

/-! ## Python dict model: insertion-ordered association list -/

def keyMem (d : List (String × α)) (k : String) : Bool :=
  d.any (fun kv => kv.1 == k)

def dictGet (d : List (String × α)) (k : String) : Option α :=
  (d.find? (fun kv => kv.1 == k)).map (fun kv => kv.2)

def dictInsert (d : List (String × α)) (k : String) (v : α) : List (String × α) :=
  if keyMem d k then d.map (fun kv => if kv.1 == k then (k, v) else kv)
  else d ++ [(k, v)]

def dictOf (l : List (String × α)) : List (String × α) :=
  l.foldl (fun d kv => dictInsert d kv.1 kv.2) []

def dictKeys (d : List (String × α)) : List String :=
  d.map Prod.fst

/-! ## Batch partitioning: papers[i : i + batch_size] groups -/

def chunksGo (bs : Nat) : Nat → List α → List (List α)
  | _, [] => []
  | 0, _ :: _ => []
  | fuel + 1, a :: l => ((a :: l).take bs) :: chunksGo bs fuel ((a :: l).drop bs)

def chunks (bs : Nat) (l : List α) : List (List α) :=
  chunksGo bs l.length l

/-! ## Reasoning-service call outcomes -/

inductive LLMResult (ρ : Type) where
  | raise
  | respond (r : ρ)
deriving DecidableEq, Repr

/-! ## Filter agent (src/arxiv_agent/agents/filter_agent.py) -/

structure FilterEntry where
  id : Option String
  is_relevant : Option Bool
deriving DecidableEq, Repr

inductive FilterResp where
  | undecodable
  | arr (entries : List FilterEntry)
deriving DecidableEq, Repr

def optMapList (f : α → Option β) : List α → Option (List β)
  | [] => some []
  | a :: as =>
    match f a, optMapList f as with
    | some b, some bs => some (b :: bs)
    | _, _ => none

def filterFallbackDict (chunk : List ArxivPaper) : List (String × Bool) :=
  dictOf (chunk.map (fun p => (p.arxiv_id, true)))

def filterParseEntries (entries : List FilterEntry) : Option (List (String × Bool)) :=
  optMapList (fun e => e.id.map (fun i => (i, e.is_relevant.getD true))) entries

def filter_parse_batch_response (resp : FilterResp) (chunk : List ArxivPaper) :
    List (String × Bool) :=
  match resp with
  | .undecodable => filterFallbackDict chunk
  | .arr entries =>
    match filterParseEntries entries with
    | some kvs => dictOf kvs
    | none => filterFallbackDict chunk

def filter_batch (call : LLMResult FilterResp) (chunk : List ArxivPaper) :
    List (String × Bool) × Bool :=
  match call with
  | .raise => (filterFallbackDict chunk, true)
  | .respond r => (filter_parse_batch_response r chunk, false)

def chunkVerdicts {V : Type} (pm : List (String × ArxivPaper)) (chunk : List ArxivPaper)
    (d : List (String × β)) (mk : ArxivPaper → β → V) (fb : ArxivPaper → V) : List V :=
  (d.filterMap (fun kv => (dictGet pm kv.1).map (fun p => mk p kv.2)))
    ++ (chunk.filter (fun p => ! keyMem d p.arxiv_id)).map fb

def paperMapOf (papers : List ArxivPaper) : List (String × ArxivPaper) :=
  dictOf (papers.map (fun p => (p.arxiv_id, p)))

def filterChunkVerdicts (pm : List (String × ArxivPaper)) (call : LLMResult FilterResp)
    (chunk : List ArxivPaper) : List FilteredPaper :=
  chunkVerdicts pm chunk (filter_batch call chunk).1
    (fun p b => FilteredPaper.mk p b) (fun p => FilteredPaper.mk p true)

def processFilterChunks (pm : List (String × ArxivPaper))
    (oracle : Nat → LLMResult FilterResp) (i : Nat) :
    List (List ArxivPaper) → List FilteredPaper
  | [] => []
  | c :: rest =>
    filterChunkVerdicts pm (oracle i) c ++ processFilterChunks pm oracle (i + 1) rest

def countFailedChunks (oracle : Nat → LLMResult FilterResp) (i : Nat) :
    List (List ArxivPaper) → Nat
  | [] => 0
  | c :: rest =>
    (if (filter_batch (oracle i) c).2 then 1 else 0) + countFailedChunks oracle (i + 1) rest

def filter_papers (papers : List ArxivPaper) (batch_size : Nat)
    (oracle : Nat → LLMResult FilterResp) : FilterResult :=
  { papers := processFilterChunks (paperMapOf papers) oracle 0 (chunks batch_size papers)
    total_batches := (papers.length + batch_size - 1) / batch_size
    failed_batches := countFailedChunks oracle 0 (chunks batch_size papers) }

/-! ## Scorer agent (src/arxiv_agent/agents/scorer_agent.py) -/

inductive ScoreVal where
  | missing
  | notNum
  | num (n : Int)
deriving DecidableEq, Repr

structure ScoreEntry where
  id : Option String
  score : ScoreVal
  justification : Option String
deriving DecidableEq, Repr

inductive ScorerResp where
  | undecodable
  | arr (entries : List ScoreEntry)
deriving DecidableEq, Repr

def clampScore (n : Int) : Int := max 1 (min 100 n)

def scoreFallbackDict (chunk : List ArxivPaper) : List (String × (Int × String)) :=
  dictOf (chunk.map (fun p => (p.arxiv_id, ((50 : Int), ""))))

def scoreParseEntries (entries : List ScoreEntry) :
    Option (List (String × (Int × String))) :=
  optMapList (fun e =>
    match e.id, e.score with
    | some i, .missing => some (i, (clampScore 50, e.justification.getD ""))
    | some i, .num n => some (i, (clampScore n, e.justification.getD ""))
    | _, .notNum => none
    | none, _ => none) entries

def scorer_parse_batch_response (resp : ScorerResp) (chunk : List ArxivPaper) :
    List (String × (Int × String)) :=
  match resp with
  | .undecodable => scoreFallbackDict chunk
  | .arr entries =>
    match scoreParseEntries entries with
    | some kvs => dictOf kvs
    | none => scoreFallbackDict chunk

def score_batch (call : LLMResult ScorerResp) (chunk : List ArxivPaper) :
    List (String × (Int × String)) :=
  match call with
  | .raise => scoreFallbackDict chunk
  | .respond r => scorer_parse_batch_response r chunk

def scoreChunkVerdicts (pm : List (String × ArxivPaper)) (call : LLMResult ScorerResp)
    (chunk : List ArxivPaper) : List ScoredPaper :=
  chunkVerdicts pm chunk (score_batch call chunk)
    (fun p v => ScoredPaper.mk p v.1 v.2) (fun p => ScoredPaper.mk p 50 "")

def processScoreChunks (pm : List (String × ArxivPaper))
    (oracle : Nat → LLMResult ScorerResp) (i : Nat) :
    List (List ArxivPaper) → List ScoredPaper
  | [] => []
  | c :: rest =>
    scoreChunkVerdicts pm (oracle i) c ++ processScoreChunks pm oracle (i + 1) rest

/-- Stable descending insertion: models Python list.sort(key, reverse=True),
which is a stable sort; an element is placed after every earlier element of
strictly greater or equal score. -/
def insertDesc (x : ScoredPaper) : List ScoredPaper → List ScoredPaper
  | [] => [x]
  | y :: ys => if x.score < y.score then y :: insertDesc x ys else x :: y :: ys

def sortByScoreDesc : List ScoredPaper → List ScoredPaper
  | [] => []
  | x :: xs => insertDesc x (sortByScoreDesc xs)

/-- score_papers returns a bare sorted list of verdicts; the source does not
build a ScoreResult and tracks no failed-batch counter. -/
def score_papers (papers : List ArxivPaper) (batch_size : Nat)
    (oracle : Nat → LLMResult ScorerResp) : List ScoredPaper :=
  sortByScoreDesc (processScoreChunks (paperMapOf papers) oracle 0 (chunks batch_size papers))

/-! ## Orchestrator pieces (src/arxiv_agent/workflow.py) -/

/-- The threshold and top-N selection run_workflow applies to the scorer
output (workflow.py lines 92-93): keep scores at or above the threshold,
then take the first max_items of the already score-sorted list. -/
def thresholdSelect (scored : List ScoredPaper) (score_threshold : Int)
    (max_items : Nat) : List ScoredPaper :=
  (scored.filter (fun s => score_threshold ≤ s.score)).take max_items

/-- The lines of the diagnostic status message (_build_status_message). -/
def statusLines (reason : String) (total_papers : Nat)
    (filter_failed_batches filter_total_batches : Nat)
    (scorer_failed_batches scorer_total_batches : Nat) : List String :=
  let l1 := [reason, "", "Papers fetched from arxiv: " ++ toString total_papers]
  let l2 :=
    if 0 < filter_total_batches then
      if 0 < filter_failed_batches then
        l1 ++ ["Filter errors: " ++ toString filter_failed_batches ++ "/"
               ++ toString filter_total_batches ++ " batches failed"]
      else l1 ++ ["Filter: " ++ toString filter_total_batches
               ++ " batches processed successfully"]
    else l1
  let l3 :=
    if 0 < scorer_total_batches then
      if 0 < scorer_failed_batches then
        l2 ++ ["Scorer errors: " ++ toString scorer_failed_batches ++ "/"
               ++ toString scorer_total_batches ++ " batches failed"]
      else l2 ++ ["Scorer: " ++ toString scorer_total_batches
               ++ " batches processed successfully"]
    else l2
  if 0 < filter_failed_batches ∨ 0 < scorer_failed_batches then
    l3 ++ ["", "Note: Connection errors may have affected paper scoring. "
           ++ "Papers with failed scoring default to score 50."]
  else l3

def build_status_message (reason : String) (total_papers : Nat)
    (ff ft sf st : Nat) : String :=
  String.intercalate "\n" (statusLines reason total_papers ff ft sf st)

/-! ## Analyzer agent (src/arxiv_agent/agents/analyzer_agent.py) -/

inductive RatingVal where
  | missing
  | notNumStr
  | num (n : Int)
deriving DecidableEq, Repr

structure AnalyzerFields where
  summary : Option String
  authors_affiliations : Option String
  rating : RatingVal
  rating_justification : Option String
  community_summary : Option String
deriving DecidableEq, Repr

inductive AnalyzerResp where
  | undecodable
  | obj (f : AnalyzerFields)
deriving DecidableEq, Repr

def emptyAnalyzerFields : AnalyzerFields :=
  { summary := none, authors_affiliations := none, rating := .missing
    rating_justification := none, community_summary := none }

/-- _parse_analyzer_response: an undecodable payload, or a ValueError while
converting the rating to int, drops the whole decoded object and yields the
empty dict; otherwise a present rating is clamped to the 1..100 range. -/
def parse_analyzer_response (r : AnalyzerResp) : AnalyzerFields :=
  match r with
  | .undecodable => emptyAnalyzerFields
  | .obj f =>
    match f.rating with
    | .notNumStr => emptyAnalyzerFields
    | .missing => f
    | .num n => { f with rating := .num (clampScore n) }

def joinAuthors (authors : List String) : String :=
  String.intercalate ", " authors

def analyze_paper (paper : ArxivPaper) (initial_score : Int)
    (community_feedback : CommunityFeedback) (paper_content : String)
    (call : LLMResult AnalyzerResp) : PaperAnalysis :=
  let content_excerpt :=
    if paper_content = "" then "Paper content not available." else paper_content.take 15000
  match call with
  | .raise =>
    { paper := paper
      score := initial_score
      score_justification := "Analysis failed"
      summary := paper.abstract.take 200
      authors_affiliations := joinAuthors paper.authors
      community_feedback := community_feedback.feedback_summary
      paper_content_summary := "" }
  | .respond r =>
    let result := parse_analyzer_response r
    { paper := paper
      score := match result.rating with | .num n => n | _ => initial_score
      score_justification := result.rating_justification.getD ""
      summary := result.summary.getD ""
      authors_affiliations := (result.authors_affiliations).getD (joinAuthors paper.authors)
      community_feedback := (result.community_summary).getD community_feedback.feedback_summary
      paper_content_summary := content_excerpt.take 2000 }

/-! ## Arxiv client (src/arxiv_agent/tools/arxiv_client.py) -/

inductive DateField where
  | absent
  | malformed
  | iso (t : Int)
deriving DecidableEq, Repr

/-- _parse_date: an absent or non-ISO-8601 timestamp string defaults to the
current time. -/
def parse_date (now : Int) : DateField → Int
  | .absent => now
  | .malformed => now
  | .iso t => t

structure FeedEntry where
  idRaw : String
  title : String
  summary : String
  authorNames : List String
  published : DateField
  updated : DateField
  pdfLink : Option String
  tags : List String
deriving DecidableEq, Repr

def splitSegGo (sep : List Char) : Nat → List Char → List Char → List (List Char)
  | _, acc, [] => [acc.reverse]
  | 0, acc, l => [acc.reverse ++ l]
  | fuel + 1, acc, c :: rest =>
    if sep ≠ [] ∧ sep.isPrefixOf (c :: rest) then
      acc.reverse :: splitSegGo sep fuel [] ((c :: rest).drop sep.length)
    else splitSegGo sep fuel (c :: acc) rest

/-- str.split(sep) on the underlying character lists: leftmost,
non-overlapping separator occurrences delimit the segments. -/
def splitOnChars (sep l : List Char) : List (List Char) :=
  splitSegGo sep l.length [] l

def entryArxivId (e : FeedEntry) : String :=
  String.mk ((splitOnChars "/abs/".data e.idRaw.data).getLastD [])

/-- _parse_entry: an entry with an empty identity is skipped (None); any
other entry is turned into a paper, dates defaulting to now when missing
or malformed. -/
def parse_entry (now : Int) (e : FeedEntry) : Option ArxivPaper :=
  let aid := entryArxivId e
  if aid = "" then none
  else
    let rawPdf := e.pdfLink.getD ""
    some
      { arxiv_id := aid
        title := (e.title.replace "\n" " ").trim
        abstract := (e.summary.replace "\n" " ").trim
        authors := e.authorNames
        published := parse_date now e.published
        updated := parse_date now e.updated
        pdf_url := if rawPdf = "" then "https://arxiv.org/pdf/" ++ aid ++ ".pdf" else rawPdf
        categories := e.tags.filter (fun t => t ≠ "") }

def dateInWindow (start_date end_date t : Int) : Bool :=
  decide (start_date ≤ t) && decide (t ≤ end_date)

def categoryOk (catF : Option (List String)) (p : ArxivPaper) : Bool :=
  match catF with
  | none => true
  | some cs => p.categories.any (fun c => cs.contains c)

def minPublished : List ArxivPaper → Int
  | [] => 0
  | p :: ps => ps.foldl (fun m q => min m q.published) p.published

def pageMatches (start_date end_date : Int) (catF : Option (List String))
    (ps : List ArxivPaper) : List ArxivPaper :=
  ps.filter (fun p => dateInWindow start_date end_date p.published && categoryOk catF p)

/-- The pagination loop of _search_arxiv_with_date_range.  pages is the
oracle for _search_arxiv at each batch index; the second component counts
how many pages were actually requested. -/
def searchGo (pages : Nat → List ArxivPaper) (start_date end_date : Int)
    (catF : Option (List String)) : Nat → Nat → List ArxivPaper × Nat
  | 0, _ => ([], 0)
  | fuel + 1, idx =>
    let ps := pages idx
    if ps.isEmpty then ([], 1)
    else
      let ms := pageMatches start_date end_date catF ps
      if minPublished ps < start_date then (ms, 1)
      else
        let rest := searchGo pages start_date end_date catF fuel (idx + 1)
        (ms ++ rest.1, rest.2 + 1)

def search_arxiv_with_date_range (pages : Nat → List ArxivPaper)
    (start_date end_date : Int) (catF : Option (List String))
    (max_batches : Nat) : List ArxivPaper × Nat :=
  searchGo pages start_date end_date catF max_batches 0

def isRaiseF : LLMResult FilterResp → Bool
  | .raise => true
  | .respond _ => false

/-! ## Concrete inputs used in the closed example theorems -/

def paperA : ArxivPaper :=
  { arxiv_id := "a", title := "Paper A", abstract := "abstract of paper A"
    authors := ["Ann"], published := 0, updated := 0, pdf_url := "", categories := [] }

def paperB : ArxivPaper :=
  { arxiv_id := "b", title := "Paper B", abstract := "abstract of paper B"
    authors := ["Bob"], published := 0, updated := 0, pdf_url := "", categories := [] }

def paperC : ArxivPaper :=
  { arxiv_id := "c", title := "Paper C", abstract := "abstract of paper C"
    authors := [], published := 0, updated := 0, pdf_url := "", categories := [] }

/-- A filter oracle whose first-chunk response also names the identity of a
paper belonging to the second chunk. -/
def cexFilterOracle : Nat → LLMResult FilterResp := fun i =>
  if i = 0 then
    .respond (.arr [{ id := some "a", is_relevant := some true },
                    { id := some "b", is_relevant := some false }])
  else .raise

/-- A scorer oracle giving both papers the same score but listing them in
the opposite of submission order. -/
def cexTieOracle : Nat → LLMResult ScorerResp := fun _ =>
  .respond (.arr [{ id := some "b", score := .num 70, justification := none },
                  { id := some "a", score := .num 70, justification := none }])

/-- A scorer response whose second entry has a non-numeric score while the
first entry is perfectly well formed. -/
def cexMalformedResp : ScorerResp :=
  .arr [{ id := some "a", score := .num 90, justification := none },
        { id := some "b", score := .notNum, justification := none }]

def cexFeedback : CommunityFeedback :=
  { paper_id := "a", feedback_summary := "well received", sources := [] }

/-- A feed entry carrying a valid identity but an unparseable published
timestamp. -/
def cexMalformedEntry : FeedEntry :=
  { idRaw := "http://arxiv.org/abs/1234.5678", title := "T", summary := "S"
    authorNames := [], published := .malformed, updated := .absent
    pdfLink := none, tags := [] }

/-! ## Dictionary lemmas -/

theorem keyMem_iff {α : Type} (d : List (String × α)) (k : String) :
    keyMem d k = true ↔ k ∈ dictKeys d := by
  simp [keyMem, dictKeys, List.any_eq_true, List.mem_map, beq_iff_eq]

theorem keyMem_false_iff {α : Type} (d : List (String × α)) (k : String) :
    keyMem d k = false ↔ k ∉ dictKeys d := by
  rw [← keyMem_iff]
  cases keyMem d k <;> simp

theorem dictKeys_dictInsert {α : Type} (d : List (String × α)) (k : String) (v : α) :
    dictKeys (dictInsert d k v) =
      if keyMem d k then dictKeys d else dictKeys d ++ [k] := by
  unfold dictInsert
  cases h : keyMem d k with
  | true =>
    simp only [if_true]
    unfold dictKeys
    rw [List.map_map]
    apply List.map_congr_left
    intro kv _
    cases hk : kv.1 == k with
    | true =>
      simp only [Function.comp_apply, hk, if_true]
      exact (beq_iff_eq.mp hk).symm
    | false =>
      simp only [Function.comp_apply, hk, Bool.false_eq_true, if_false]
  | false =>
    simp [dictKeys]

theorem foldl_dictInsert_keys_nodup {α : Type} (l : List (String × α)) :
    ∀ acc : List (String × α), (dictKeys acc).Nodup →
      (dictKeys (l.foldl (fun d kv => dictInsert d kv.1 kv.2) acc)).Nodup := by
  induction l with
  | nil => intro acc hacc; simpa using hacc
  | cons kv rest ih =>
    intro acc hacc
    simp only [List.foldl_cons]
    apply ih
    rw [dictKeys_dictInsert]
    cases h : keyMem acc kv.1 with
    | true => simpa using hacc
    | false =>
      simp only [Bool.false_eq_true, if_false]
      rw [List.nodup_append]
      refine ⟨hacc, List.nodup_singleton _, ?_⟩
      intro a ha hb
      simp only [List.mem_singleton] at hb
      subst hb
      exact ((keyMem_false_iff acc kv.1).mp h) ha

theorem dictOf_keys_nodup {α : Type} (l : List (String × α)) :
    (dictKeys (dictOf l)).Nodup :=
  foldl_dictInsert_keys_nodup l [] (by simp [dictKeys])

theorem foldl_dictInsert_eq {α : Type} (l : List (String × α)) :
    ∀ acc : List (String × α), (acc.map Prod.fst ++ l.map Prod.fst).Nodup →
      (l.foldl (fun d kv => dictInsert d kv.1 kv.2) acc) = acc ++ l := by
  induction l with
  | nil => intro acc _; simp
  | cons kv rest ih =>
    intro acc hacc
    simp only [List.foldl_cons]
    have hdisj : keyMem acc kv.1 = false := by
      rw [keyMem_false_iff]
      intro hk
      rw [List.nodup_append] at hacc
      exact hacc.2.2 hk (by simp)
    have hins : dictInsert acc kv.1 kv.2 = acc ++ [kv] := by
      simp [dictInsert, hdisj]
    rw [hins]
    have hstep := ih (acc ++ [kv]) (by
      simp only [List.map_append, List.map_cons, List.map_nil] at hacc ⊢
      simpa [List.append_assoc] using hacc)
    simpa using hstep

theorem dictOf_eq_of_nodup {α : Type} (l : List (String × α))
    (h : (l.map Prod.fst).Nodup) : dictOf l = l := by
  have := foldl_dictInsert_eq l [] (by simpa using h)
  simpa [dictOf] using this

theorem mem_dictInsert {α : Type} {d : List (String × α)} {k : String} {v : α}
    {kv : String × α} (h : kv ∈ dictInsert d k v) : kv ∈ d ∨ kv = (k, v) := by
  unfold dictInsert at h
  cases hk : keyMem d k with
  | true =>
    rw [hk] at h
    simp only [if_true, List.mem_map] at h
    obtain ⟨kw, hkw, heq⟩ := h
    cases hh : kw.1 == k with
    | true =>
      right
      rw [hh] at heq
      simp only [if_true] at heq
      exact heq.symm
    | false =>
      left
      rw [hh] at heq
      simp only [Bool.false_eq_true, if_false] at heq
      exact heq ▸ hkw
  | false =>
    rw [hk] at h
    simp only [Bool.false_eq_true, if_false, List.mem_append, List.mem_singleton] at h
    exact h

theorem foldl_dictInsert_mem {α : Type} (l : List (String × α)) {kv : String × α} :
    ∀ acc : List (String × α),
      kv ∈ l.foldl (fun d kw => dictInsert d kw.1 kw.2) acc → kv ∈ acc ∨ kv ∈ l := by
  induction l with
  | nil =>
    intro acc h1
    simp only [List.foldl_nil] at h1
    exact Or.inl h1
  | cons kw rest ih =>
    intro acc h1
    simp only [List.foldl_cons] at h1
    rcases ih (dictInsert acc kw.1 kw.2) h1 with h2 | h2
    · rcases mem_dictInsert h2 with h3 | h3
      · exact Or.inl h3
      · right
        rw [h3]
        exact List.mem_cons_self kw rest
    · exact Or.inr (List.mem_cons_of_mem kw h2)

theorem mem_dictOf {α : Type} {l : List (String × α)} {kv : String × α}
    (h : kv ∈ dictOf l) : kv ∈ l := by
  rcases foldl_dictInsert_mem l [] h with h1 | h1
  · simp at h1
  · exact h1

theorem dictGet_some_mem {α : Type} {d : List (String × α)} {k : String} {v : α}
    (h : dictGet d k = some v) : (k, v) ∈ d := by
  unfold dictGet at h
  cases hf : d.find? (fun kv => kv.1 == k) with
  | none => rw [hf] at h; cases h
  | some kv =>
    rw [hf] at h
    simp only [Option.map_some'] at h
    have hp := List.find?_some hf
    have hm := List.mem_of_find?_eq_some hf
    have hke : kv.1 = k := beq_iff_eq.mp hp
    cases kv with
    | mk k1 v1 =>
      simp only at h hke
      subst hke
      simp only [Option.some_inj] at h
      subst h
      exact hm

theorem dictGet_isSome_iff {α : Type} (d : List (String × α)) (k : String) :
    (dictGet d k).isSome = true ↔ k ∈ dictKeys d := by
  unfold dictGet
  cases hf : d.find? (fun kv => kv.1 == k) with
  | none =>
    have := List.find?_eq_none.mp hf
    simp only [Option.map_none', Option.isSome_none, Bool.false_eq_true, false_iff]
    intro hk
    simp only [dictKeys, List.mem_map] at hk
    obtain ⟨kv, hkv, rfl⟩ := hk
    exact absurd (by simp : (kv.1 == kv.1) = true) (by simpa using this kv hkv)
  | some kv =>
    have hp := List.find?_some hf
    have hm := List.mem_of_find?_eq_some hf
    simp only [Option.map_some', Option.isSome_some, true_iff]
    simp only [dictKeys, List.mem_map]
    exact ⟨kv, hm, beq_iff_eq.mp hp⟩

theorem dictGet_map_self (papers : List ArxivPaper) (p : ArxivPaper)
    (hnd : (papers.map (fun q => q.arxiv_id)).Nodup) (hp : p ∈ papers) :
    dictGet (papers.map (fun q => (q.arxiv_id, q))) p.arxiv_id = some p := by
  induction papers with
  | nil => simp at hp
  | cons q rest ih =>
    simp only [List.map_cons, List.nodup_cons] at hnd
    rcases List.mem_cons.mp hp with rfl | hmem
    · simp [dictGet]
    · have hne : ((fun kv : String × ArxivPaper => kv.1 == p.arxiv_id)
          (q.arxiv_id, q)) = false := by
        simp only [beq_eq_false_iff_ne, ne_eq]
        intro he
        exact hnd.1 (he ▸ List.mem_map_of_mem (fun r => r.arxiv_id) hmem)
      simp only [dictGet, List.map_cons]
      rw [List.find?_cons_of_neg _ (by simpa using hne)]
      exact ih hnd.2 hmem

theorem paperMapOf_eq (papers : List ArxivPaper)
    (hnd : (papers.map (fun q => q.arxiv_id)).Nodup) :
    paperMapOf papers = papers.map (fun q => (q.arxiv_id, q)) := by
  apply dictOf_eq_of_nodup
  rw [List.map_map]
  exact hnd

theorem dictGet_paperMapOf (papers : List ArxivPaper) (p : ArxivPaper)
    (hnd : (papers.map (fun q => q.arxiv_id)).Nodup) (hp : p ∈ papers) :
    dictGet (paperMapOf papers) p.arxiv_id = some p := by
  rw [paperMapOf_eq papers hnd]
  exact dictGet_map_self papers p hnd hp

theorem dictGet_paperMapOf_isSome (papers : List ArxivPaper) (k : String)
    (hnd : (papers.map (fun q => q.arxiv_id)).Nodup) :
    (dictGet (paperMapOf papers) k).isSome = true ↔
      k ∈ papers.map (fun q => q.arxiv_id) := by
  rw [paperMapOf_eq papers hnd, dictGet_isSome_iff]
  simp [dictKeys, List.map_map]

/-! ## optMapList lemmas -/

theorem optMapList_eq_none_iff {α β : Type} (f : α → Option β) (l : List α) :
    optMapList f l = none ↔ ∃ a ∈ l, f a = none := by
  induction l with
  | nil => simp [optMapList]
  | cons a as ih =>
    simp only [optMapList]
    cases hfa : f a with
    | none => simp [hfa]
    | some b =>
      cases hrest : optMapList f as with
      | none => simp [hfa, ih.mp hrest, hrest]
      | some bs =>
        simp only [hfa, hrest]
        constructor
        · intro h; cases h
        · rintro ⟨x, hx, hfx⟩
          rcases List.mem_cons.mp hx with rfl | hmem
          · rw [hfa] at hfx; cases hfx
          · have := ih.mpr ⟨x, hmem, hfx⟩
            rw [hrest] at this; cases this

theorem optMapList_mem {α β : Type} {f : α → Option β} {l : List α} {bs : List β}
    (h : optMapList f l = some bs) {b : β} (hb : b ∈ bs) :
    ∃ a ∈ l, f a = some b := by
  induction l generalizing bs with
  | nil => simp [optMapList] at h; subst h; simp at hb
  | cons a as ih =>
    simp only [optMapList] at h
    cases hfa : f a with
    | none => rw [hfa] at h; cases h
    | some c =>
      rw [hfa] at h
      cases hrest : optMapList f as with
      | none => rw [hrest] at h; cases h
      | some cs =>
        rw [hrest] at h
        simp only [Option.some_inj] at h
        subst h
        rcases List.mem_cons.mp hb with rfl | hmem
        · exact ⟨a, List.mem_cons_self a as, hfa⟩
        · obtain ⟨x, hx, hfx⟩ := ih hrest hmem
          exact ⟨x, List.mem_cons_of_mem a hx, hfx⟩

/-! ## Chunking lemmas -/

theorem chunksGo_join {α : Type} (bs : Nat) (hbs : 0 < bs) :
    ∀ (fuel : Nat) (l : List α), l.length ≤ fuel → (chunksGo bs fuel l).flatten = l := by
  intro fuel
  induction fuel with
  | zero =>
    intro l hl
    cases l with
    | nil => simp [chunksGo]
    | cons a as => simp at hl
  | succ n ih =>
    intro l hl
    cases l with
    | nil => simp [chunksGo]
    | cons a as =>
      simp only [chunksGo, List.flatten_cons]
      rw [ih ((a :: as).drop bs) ?_]
      · exact List.take_append_drop bs (a :: as)
      · rw [List.length_drop]
        have : (a :: as).length ≤ n + 1 := hl
        omega

theorem chunks_join {α : Type} (bs : Nat) (l : List α) (hbs : 0 < bs) :
    (chunks bs l).flatten = l :=
  chunksGo_join bs hbs l.length l le_rfl

theorem sublist_of_mem_chunksGo {α : Type} {bs : Nat} :
    ∀ {fuel : Nat} {l c : List α}, c ∈ chunksGo bs fuel l → c.Sublist l := by
  intro fuel
  induction fuel with
  | zero =>
    intro l c hc
    cases l <;> simp [chunksGo] at hc
  | succ n ih =>
    intro l c hc
    cases l with
    | nil => simp [chunksGo] at hc
    | cons a as =>
      simp only [chunksGo, List.mem_cons] at hc
      rcases hc with rfl | hc
      · exact List.take_sublist bs (a :: as)
      · exact (ih hc).trans (List.drop_sublist bs (a :: as))

theorem sublist_of_mem_chunks {α : Type} {bs : Nat} {l c : List α}
    (hc : c ∈ chunks bs l) : c.Sublist l :=
  sublist_of_mem_chunksGo hc

theorem mem_of_get?_chunks {α : Type} {bs : Nat} {l c : List α} {i : Nat}
    (hc : (chunks bs l).get? i = some c) : c ∈ chunks bs l :=
  List.get?_mem hc

/-! ## Stable descending sort lemmas -/

theorem insertDesc_perm (x : ScoredPaper) (l : List ScoredPaper) :
    (insertDesc x l).Perm (x :: l) := by
  induction l with
  | nil => simp [insertDesc]
  | cons y ys ih =>
    unfold insertDesc
    by_cases h : x.score < y.score
    · simp only [h, if_true]
      exact (List.Perm.cons y ih).trans (List.Perm.swap x y ys)
    · simp [h]

theorem sortByScoreDesc_perm (l : List ScoredPaper) :
    (sortByScoreDesc l).Perm l := by
  induction l with
  | nil => simp [sortByScoreDesc]
  | cons x xs ih =>
    unfold sortByScoreDesc
    exact (insertDesc_perm x (sortByScoreDesc xs)).trans (List.Perm.cons x ih)

theorem insertDesc_sorted (x : ScoredPaper) (l : List ScoredPaper)
    (hl : l.Pairwise (fun a b => b.score ≤ a.score)) :
    (insertDesc x l).Pairwise (fun a b => b.score ≤ a.score) := by
  induction l with
  | nil => simp [insertDesc]
  | cons y ys ih =>
    rw [List.pairwise_cons] at hl
    unfold insertDesc
    by_cases h : x.score < y.score
    · simp only [h, if_true]
      rw [List.pairwise_cons]
      constructor
      · intro a ha
        have := (insertDesc_perm x ys).mem_iff.mp ha
        rcases List.mem_cons.mp this with rfl | hmem
        · exact le_of_lt h
        · exact hl.1 a hmem
      · exact ih hl.2
    · simp only [h, if_false]
      rw [List.pairwise_cons]
      push_neg at h
      constructor
      · intro a ha
        rcases List.mem_cons.mp ha with rfl | hmem
        · exact h
        · exact le_trans (hl.1 a hmem) h
      · exact List.pairwise_cons.mpr hl

theorem sortByScoreDesc_sorted (l : List ScoredPaper) :
    (sortByScoreDesc l).Pairwise (fun a b => b.score ≤ a.score) := by
  induction l with
  | nil => simp [sortByScoreDesc]
  | cons x xs ih => exact insertDesc_sorted x (sortByScoreDesc xs) ih

theorem insertDesc_filter_score (x : ScoredPaper) (l : List ScoredPaper) (s : Int) :
    (insertDesc x l).filter (fun p => p.score == s)
      = (x :: l).filter (fun p => p.score == s) := by
  induction l with
  | nil => rfl
  | cons y ys ih =>
    unfold insertDesc
    by_cases h : x.score < y.score
    · simp only [h, if_true]
      by_cases hy : y.score = s
      · have hx : ¬ x.score = s := by
          intro hx
          rw [hx, hy] at h
          exact lt_irrefl s h
        simp [List.filter_cons, hx, hy, ih]
      · simp [List.filter_cons, hy, ih]
    · simp [h]

theorem sortByScoreDesc_stable (l : List ScoredPaper) (s : Int) :
    (sortByScoreDesc l).filter (fun p => p.score == s)
      = l.filter (fun p => p.score == s) := by
  induction l with
  | nil => rfl
  | cons x xs ih =>
    unfold sortByScoreDesc
    rw [insertDesc_filter_score]
    by_cases hx : x.score = s
    · simp [List.filter_cons, hx, ih]
    · simp [List.filter_cons, hx, ih]

/-! ## Batch helper lemmas -/

theorem filter_batch_flag (call : LLMResult FilterResp) (chunk : List ArxivPaper) :
    (filter_batch call chunk).2 = isRaiseF call := by
  cases call <;> rfl

theorem countFailedChunks_congr (oracle oracle2 : Nat → LLMResult FilterResp) :
    ∀ (cs : List (List ArxivPaper)) (i0 : Nat),
      (∀ j, i0 ≤ j → isRaiseF (oracle j) = isRaiseF (oracle2 j)) →
      countFailedChunks oracle i0 cs = countFailedChunks oracle2 i0 cs := by
  intro cs
  induction cs with
  | nil => intro i0 _; rfl
  | cons c rest ih =>
    intro i0 h
    simp only [countFailedChunks, filter_batch_flag]
    rw [h i0 le_rfl, ih (i0 + 1) (fun j hj => h j (by omega))]

theorem countFailedChunks_update (oracle oracle2 : Nat → LLMResult FilterResp) (i : Nat) :
    ∀ (cs : List (List ArxivPaper)) (i0 : Nat), i0 ≤ i → i < i0 + cs.length →
      oracle i = .raise →
      isRaiseF (oracle2 i) = false →
      (∀ j, j ≠ i → oracle2 j = oracle j) →
      countFailedChunks oracle i0 cs = countFailedChunks oracle2 i0 cs + 1 := by
  intro cs
  induction cs with
  | nil => intro i0 h1 h2; simp at h2; omega
  | cons c rest ih =>
    intro i0 h1 h2 hr hr2 hagree
    simp only [countFailedChunks, filter_batch_flag]
    by_cases hi : i0 = i
    · subst hi
      rw [hr, hr2]
      simp only [isRaiseF, if_true, Bool.false_eq_true, if_false]
      rw [countFailedChunks_congr oracle oracle2 rest (i0 + 1)
        (fun j hj => by rw [hagree j (by omega)])]
      omega
    · rw [hagree i0 hi]
      rw [ih (i0 + 1) (by omega) (by simp at h2; omega) hr hr2 hagree]
      omega

/-! ## chunkVerdicts lemmas -/

theorem filterMap_dictGet_eq_map {β V : Type} (pm : List (String × ArxivPaper))
    (v0 : β) (mk : ArxivPaper → β → V) :
    ∀ (chunk : List ArxivPaper), (∀ p ∈ chunk, dictGet pm p.arxiv_id = some p) →
      chunk.filterMap (fun p => (dictGet pm p.arxiv_id).map (fun q => mk q v0))
        = chunk.map (fun p => mk p v0) := by
  intro chunk
  induction chunk with
  | nil => intro _; rfl
  | cons p rest ih =>
    intro h
    rw [List.filterMap_cons, h p (List.mem_cons_self p rest)]
    simp only [Option.map_some', List.map_cons]
    rw [ih (fun q hq => h q (List.mem_cons_of_mem p hq))]

theorem chunkVerdicts_fallback {β V : Type} (papers chunk : List ArxivPaper) (v0 : β)
    (mk : ArxivPaper → β → V) (fb : ArxivPaper → V)
    (hnd : (papers.map (fun p => p.arxiv_id)).Nodup)
    (hsub : chunk.Sublist papers) :
    chunkVerdicts (paperMapOf papers) chunk
      (dictOf (chunk.map (fun p => (p.arxiv_id, v0)))) mk fb
      = chunk.map (fun p => mk p v0) := by
  have hcid : (chunk.map (fun p => p.arxiv_id)).Nodup :=
    hnd.sublist (hsub.map (fun p => p.arxiv_id))
  have hd : dictOf (chunk.map (fun p => (p.arxiv_id, v0)))
      = chunk.map (fun p => (p.arxiv_id, v0)) := by
    apply dictOf_eq_of_nodup
    rw [List.map_map]
    exact hcid
  unfold chunkVerdicts
  rw [hd]
  have hfirst : (chunk.map (fun p => (p.arxiv_id, v0))).filterMap
      (fun kv => (dictGet (paperMapOf papers) kv.1).map (fun p => mk p kv.2))
        = chunk.map (fun p => mk p v0) := by
    rw [List.filterMap_map]
    exact filterMap_dictGet_eq_map (paperMapOf papers) v0 mk chunk
      (fun p hp => dictGet_paperMapOf papers p hnd (hsub.mem hp))
  have hsecond : chunk.filter
      (fun p => ! keyMem (chunk.map (fun q => (q.arxiv_id, v0))) p.arxiv_id) = [] := by
    apply List.filter_eq_nil_iff.mpr
    intro p hp
    have : keyMem (chunk.map (fun q => (q.arxiv_id, v0))) p.arxiv_id = true := by
      rw [keyMem_iff]
      simp only [dictKeys, List.map_map, List.mem_map]
      exact ⟨p, hp, rfl⟩
    simp [this]
  rw [hfirst, hsecond]
  simp

theorem length_filter_comp {γ δ : Type} (l : List γ) (f : γ → δ) (q : δ → Bool) :
    (l.filter (fun x => q (f x))).length = ((l.map f).filter q).length := by
  induction l with
  | nil => rfl
  | cons x rest ih =>
    simp only [List.filter_cons, List.map_cons]
    cases q (f x) <;> simp [ih]

theorem length_filter_add_not {γ : Type} (q : γ → Bool) (l : List γ) :
    (l.filter q).length + (l.filter (fun x => ! q x)).length = l.length := by
  induction l with
  | nil => rfl
  | cons x rest ih =>
    simp only [List.filter_cons]
    cases q x <;> simp [ih] <;> omega

theorem length_filter_mem_comm (A B : List String) (hA : A.Nodup) (hB : B.Nodup) :
    (A.filter (fun k => decide (k ∈ B))).length
      = (B.filter (fun k => decide (k ∈ A))).length := by
  have key : ∀ (X Y : List String), X.Nodup →
      (X.filter (fun k => decide (k ∈ Y))).length = (X.toFinset ∩ Y.toFinset).card := by
    intro X Y hX
    rw [← List.toFinset_card_of_nodup (hX.filter _)]
    congr 1
    ext k
    simp [List.mem_toFinset, List.mem_filter, Finset.mem_inter]
  rw [key A B hA, key B A hB, Finset.inter_comm]

theorem length_filterMap_isSome {β V : Type} (pm : List (String × ArxivPaper))
    (mk : ArxivPaper → β → V) (d : List (String × β)) :
    (d.filterMap (fun kv => (dictGet pm kv.1).map (fun p => mk p kv.2))).length
      = (d.filter (fun kv => (dictGet pm kv.1).isSome)).length := by
  induction d with
  | nil => rfl
  | cons kv rest ih =>
    simp only [List.filterMap_cons, List.filter_cons]
    cases hg : dictGet pm kv.1 with
    | none => simpa [hg] using ih
    | some p => simpa [hg] using ih

/-- If the batch dictionary only names identities of the chunk itself or
identities unknown to the whole input, the chunk contributes exactly one
verdict per chunk item. -/
theorem chunkVerdicts_length {β V : Type} (papers chunk : List ArxivPaper)
    (d : List (String × β)) (mk : ArxivPaper → β → V) (fb : ArxivPaper → V)
    (hnd : (papers.map (fun p => p.arxiv_id)).Nodup)
    (hsub : chunk.Sublist papers)
    (hdk : (dictKeys d).Nodup)
    (hkeys : ∀ k ∈ dictKeys d, k ∈ chunk.map (fun p => p.arxiv_id)
      ∨ k ∉ papers.map (fun p => p.arxiv_id)) :
    (chunkVerdicts (paperMapOf papers) chunk d mk fb).length = chunk.length := by
  have hcid : (chunk.map (fun p => p.arxiv_id)).Nodup :=
    hnd.sublist (hsub.map (fun p => p.arxiv_id))
  have hBsub : ∀ k ∈ chunk.map (fun p => p.arxiv_id),
      k ∈ papers.map (fun p => p.arxiv_id) := fun k hk =>
    (hsub.map (fun p => p.arxiv_id)).mem hk
  unfold chunkVerdicts
  rw [List.length_append, List.length_map]
  have h1 : (d.filterMap
      (fun kv => (dictGet (paperMapOf papers) kv.1).map (fun p => mk p kv.2))).length
        = (d.filter (fun kv => decide (kv.1 ∈ chunk.map (fun p => p.arxiv_id)))).length := by
    rw [length_filterMap_isSome]
    congr 1
    apply List.filter_congr
    intro kv hkv
    have hkA : kv.1 ∈ dictKeys d := List.mem_map_of_mem Prod.fst hkv
    by_cases hb : kv.1 ∈ chunk.map (fun p => p.arxiv_id)
    · simp only [hb, decide_True]
      exact (dictGet_paperMapOf_isSome papers kv.1 hnd).mpr (hBsub kv.1 hb)
    · simp only [hb, decide_False]
      cases hi : (dictGet (paperMapOf papers) kv.1).isSome with
      | false => rfl
      | true =>
        exfalso
        have hall := (dictGet_paperMapOf_isSome papers kv.1 hnd).mp hi
        rcases hkeys kv.1 hkA with hc | hc
        · exact hb hc
        · exact hc hall
  have h2 : (chunk.filter (fun p => ! keyMem d p.arxiv_id)).length
      = ((chunk.map (fun p => p.arxiv_id)).filter
          (fun k => ! decide (k ∈ dictKeys d))).length := by
    rw [← length_filter_comp chunk (fun p => p.arxiv_id)
      (fun k => ! decide (k ∈ dictKeys d))]
    congr 1
    apply List.filter_congr
    intro p _
    congr 1
    by_cases hk : p.arxiv_id ∈ dictKeys d
    · simp [keyMem_iff, hk]
    · simp only [hk, decide_False]
      exact (keyMem_false_iff d p.arxiv_id).mpr hk
  rw [h1, h2]
  rw [length_filter_comp d Prod.fst
    (fun k => decide (k ∈ chunk.map (fun p => p.arxiv_id)))] at h1 ⊢
  rw [show (d.map Prod.fst) = dictKeys d from rfl]
  rw [length_filter_mem_comm (dictKeys d) (chunk.map (fun p => p.arxiv_id)) hdk hcid]
  rw [length_filter_add_not (fun k => decide (k ∈ dictKeys d))
    (chunk.map (fun p => p.arxiv_id))]
  rw [List.length_map]

/-! ## Batch dictionaries always have distinct keys -/

theorem filter_batch_keys_nodup (call : LLMResult FilterResp) (chunk : List ArxivPaper) :
    (dictKeys (filter_batch call chunk).1).Nodup := by
  cases call with
  | raise => exact dictOf_keys_nodup _
  | respond r =>
    cases r with
    | undecodable => exact dictOf_keys_nodup _
    | arr entries =>
      simp only [filter_batch, filter_parse_batch_response]
      cases filterParseEntries entries with
      | none => exact dictOf_keys_nodup _
      | some kvs => exact dictOf_keys_nodup _

theorem score_batch_keys_nodup (call : LLMResult ScorerResp) (chunk : List ArxivPaper) :
    (dictKeys (score_batch call chunk)).Nodup := by
  cases call with
  | raise => exact dictOf_keys_nodup _
  | respond r =>
    cases r with
    | undecodable => exact dictOf_keys_nodup _
    | arr entries =>
      simp only [score_batch, scorer_parse_batch_response]
      cases scoreParseEntries entries with
      | none => exact dictOf_keys_nodup _
      | some kvs => exact dictOf_keys_nodup _

/-! ## Per-chunk fallback equalities -/

theorem filterChunkVerdicts_raise (papers chunk : List ArxivPaper)
    (hnd : (papers.map (fun p => p.arxiv_id)).Nodup) (hsub : chunk.Sublist papers) :
    filterChunkVerdicts (paperMapOf papers) .raise chunk
      = chunk.map (fun p => FilteredPaper.mk p true) :=
  chunkVerdicts_fallback papers chunk true _ _ hnd hsub

theorem filterChunkVerdicts_undecodable (papers chunk : List ArxivPaper)
    (hnd : (papers.map (fun p => p.arxiv_id)).Nodup) (hsub : chunk.Sublist papers) :
    filterChunkVerdicts (paperMapOf papers) (.respond .undecodable) chunk
      = chunk.map (fun p => FilteredPaper.mk p true) :=
  chunkVerdicts_fallback papers chunk true _ _ hnd hsub

theorem scoreChunkVerdicts_raise (papers chunk : List ArxivPaper)
    (hnd : (papers.map (fun p => p.arxiv_id)).Nodup) (hsub : chunk.Sublist papers) :
    scoreChunkVerdicts (paperMapOf papers) .raise chunk
      = chunk.map (fun p => ScoredPaper.mk p 50 "") :=
  chunkVerdicts_fallback papers chunk ((50 : Int), "") _ _ hnd hsub

theorem scoreChunkVerdicts_undecodable (papers chunk : List ArxivPaper)
    (hnd : (papers.map (fun p => p.arxiv_id)).Nodup) (hsub : chunk.Sublist papers) :
    scoreChunkVerdicts (paperMapOf papers) (.respond .undecodable) chunk
      = chunk.map (fun p => ScoredPaper.mk p 50 "") :=
  chunkVerdicts_fallback papers chunk ((50 : Int), "") _ _ hnd hsub

/-! ## Totality of the per-chunk loops under same-chunk responses -/

theorem processFilterChunks_length (papers : List ArxivPaper)
    (oracle : Nat → LLMResult FilterResp)
    (hnd : (papers.map (fun p => p.arxiv_id)).Nodup) :
    ∀ (cs : List (List ArxivPaper)) (i0 : Nat),
      (∀ c ∈ cs, c.Sublist papers) →
      (∀ j c, cs.get? j = some c →
        ∀ k ∈ dictKeys (filter_batch (oracle (i0 + j)) c).1,
          k ∈ c.map (fun p => p.arxiv_id) ∨ k ∉ papers.map (fun p => p.arxiv_id)) →
      (processFilterChunks (paperMapOf papers) oracle i0 cs).length
        = (cs.map List.length).sum := by
  intro cs
  induction cs with
  | nil => intro i0 _ _; rfl
  | cons c rest ih =>
    intro i0 hsub hkeys
    simp only [processFilterChunks, List.length_append, List.map_cons, List.sum_cons]
    have hc := chunkVerdicts_length papers c (filter_batch (oracle i0) c).1
      (fun p b => FilteredPaper.mk p b) (fun p => FilteredPaper.mk p true)
      hnd (hsub c (List.mem_cons_self c rest))
      (filter_batch_keys_nodup (oracle i0) c)
      (by
        have := hkeys 0 c rfl
        simpa using this)
    rw [show filterChunkVerdicts (paperMapOf papers) (oracle i0) c
        = chunkVerdicts (paperMapOf papers) c (filter_batch (oracle i0) c).1
            (fun p b => FilteredPaper.mk p b) (fun p => FilteredPaper.mk p true)
      from rfl]
    rw [hc]
    rw [ih (i0 + 1) (fun x hx => hsub x (List.mem_cons_of_mem c hx))
      (fun j x hx => by
        have := hkeys (j + 1) x (by simpa using hx)
        rwa [show i0 + (j + 1) = i0 + 1 + j from by omega] at this)]

theorem processScoreChunks_length (papers : List ArxivPaper)
    (oracle : Nat → LLMResult ScorerResp)
    (hnd : (papers.map (fun p => p.arxiv_id)).Nodup) :
    ∀ (cs : List (List ArxivPaper)) (i0 : Nat),
      (∀ c ∈ cs, c.Sublist papers) →
      (∀ j c, cs.get? j = some c →
        ∀ k ∈ dictKeys (score_batch (oracle (i0 + j)) c),
          k ∈ c.map (fun p => p.arxiv_id) ∨ k ∉ papers.map (fun p => p.arxiv_id)) →
      (processScoreChunks (paperMapOf papers) oracle i0 cs).length
        = (cs.map List.length).sum := by
  intro cs
  induction cs with
  | nil => intro i0 _ _; rfl
  | cons c rest ih =>
    intro i0 hsub hkeys
    simp only [processScoreChunks, List.length_append, List.map_cons, List.sum_cons]
    have hc := chunkVerdicts_length papers c (score_batch (oracle i0) c)
      (fun p v => ScoredPaper.mk p v.1 v.2) (fun p => ScoredPaper.mk p 50 "")
      hnd (hsub c (List.mem_cons_self c rest))
      (score_batch_keys_nodup (oracle i0) c)
      (by
        have := hkeys 0 c rfl
        simpa using this)
    rw [show scoreChunkVerdicts (paperMapOf papers) (oracle i0) c
        = chunkVerdicts (paperMapOf papers) c (score_batch (oracle i0) c)
            (fun p v => ScoredPaper.mk p v.1 v.2) (fun p => ScoredPaper.mk p 50 "")
      from rfl]
    rw [hc]
    rw [ih (i0 + 1) (fun x hx => hsub x (List.mem_cons_of_mem c hx))
      (fun j x hx => by
        have := hkeys (j + 1) x (by simpa using hx)
        rwa [show i0 + (j + 1) = i0 + 1 + j from by omega] at this)]

theorem sum_chunk_lengths {γ : Type} (bs : Nat) (l : List γ) (hbs : 0 < bs) :
    ((chunks bs l).map List.length).sum = l.length := by
  have := chunks_join bs l hbs
  calc ((chunks bs l).map List.length).sum = (chunks bs l).flatten.length := by
        rw [List.length_flatten]
    _ = l.length := by rw [this]

/-! ## Verdict membership and score bounds -/

theorem mem_chunkVerdicts {V : Type} {pm : List (String × ArxivPaper)}
    {chunk : List ArxivPaper} {d : List (String × β)} {mk : ArxivPaper → β → V}
    {fb : ArxivPaper → V} {v : V} (h : v ∈ chunkVerdicts pm chunk d mk fb) :
    (∃ kv ∈ d, ∃ p, dictGet pm kv.1 = some p ∧ v = mk p kv.2)
      ∨ ∃ p ∈ chunk, v = fb p := by
  unfold chunkVerdicts at h
  rcases List.mem_append.mp h with h1 | h1
  · left
    obtain ⟨kv, hkv, hv⟩ := List.mem_filterMap.mp h1
    obtain ⟨p, hp, hmk⟩ := Option.map_eq_some'.mp hv
    exact ⟨kv, hkv, p, hp, hmk.symm⟩
  · right
    obtain ⟨p, hp, hv⟩ := List.mem_map.mp h1
    exact ⟨p, List.mem_of_mem_filter hp, hv.symm⟩

theorem clampScore_bounds (n : Int) : 1 ≤ clampScore n ∧ clampScore n ≤ 100 := by
  unfold clampScore
  constructor
  · exact le_max_left 1 (min 100 n)
  · exact max_le (by norm_num) (min_le_left 100 n)

theorem scoreParseEntries_bounds {entries : List ScoreEntry}
    {kvs : List (String × (Int × String))} (h : scoreParseEntries entries = some kvs) :
    ∀ kv ∈ kvs, 1 ≤ kv.2.1 ∧ kv.2.1 ≤ 100 := by
  intro kv hkv
  obtain ⟨e, _, hfe⟩ := optMapList_mem h hkv
  cases hid : e.id with
  | none => rw [hid] at hfe; cases hs : e.score <;> rw [hs] at hfe <;> cases hfe
  | some i =>
    cases hs : e.score with
    | missing =>
      rw [hid, hs] at hfe
      simp only [Option.some_inj] at hfe
      rw [← hfe]
      exact clampScore_bounds 50
    | notNum => rw [hid, hs] at hfe; simp at hfe
    | num n =>
      rw [hid, hs] at hfe
      simp only [Option.some_inj] at hfe
      rw [← hfe]
      exact clampScore_bounds n

theorem mem_fallbackDict_value {chunk : List ArxivPaper}
    {kv : String × (Int × String)} (h : kv ∈ scoreFallbackDict chunk) :
    kv.2 = ((50 : Int), "") := by
  have := mem_dictOf h
  obtain ⟨p, _, hp⟩ := List.mem_map.mp this
  rw [← hp]

theorem score_batch_values (call : LLMResult ScorerResp) (chunk : List ArxivPaper) :
    ∀ kv ∈ score_batch call chunk, 1 ≤ kv.2.1 ∧ kv.2.1 ≤ 100 := by
  intro kv hkv
  cases call with
  | raise =>
    have := mem_fallbackDict_value hkv
    rw [this]
    norm_num
  | respond r =>
    cases r with
    | undecodable =>
      have := mem_fallbackDict_value hkv
      rw [this]
      norm_num
    | arr entries =>
      simp only [score_batch, scorer_parse_batch_response] at hkv
      cases hp : scoreParseEntries entries with
      | none =>
        rw [hp] at hkv
        have := mem_fallbackDict_value hkv
        rw [this]
        norm_num
      | some kvs =>
        rw [hp] at hkv
        exact scoreParseEntries_bounds hp kv (mem_dictOf hkv)

theorem processScoreChunks_scores (pm : List (String × ArxivPaper))
    (oracle : Nat → LLMResult ScorerResp) :
    ∀ (cs : List (List ArxivPaper)) (i0 : Nat) (sp : ScoredPaper),
      sp ∈ processScoreChunks pm oracle i0 cs → 1 ≤ sp.score ∧ sp.score ≤ 100 := by
  intro cs
  induction cs with
  | nil => intro i0 sp h; simp [processScoreChunks] at h
  | cons c rest ih =>
    intro i0 sp h
    simp only [processScoreChunks, List.mem_append] at h
    rcases h with h | h
    · rcases mem_chunkVerdicts h with ⟨kv, hkv, p, _, hv⟩ | ⟨p, _, hv⟩
      · rw [hv]
        exact score_batch_values (oracle i0) c kv hkv
      · rw [hv]
        norm_num
    · exact ih (i0 + 1) sp h

/-! ## Parse-failure characterization -/

theorem scoreParseEntries_eq_none_iff (entries : List ScoreEntry) :
    scoreParseEntries entries = none
      ↔ ∃ e ∈ entries, e.id = none ∨ e.score = .notNum := by
  unfold scoreParseEntries
  rw [optMapList_eq_none_iff]
  constructor
  · rintro ⟨e, he, hfe⟩
    refine ⟨e, he, ?_⟩
    cases hid : e.id with
    | none => exact Or.inl rfl
    | some i =>
      cases hs : e.score with
      | missing => rw [hid, hs] at hfe; cases hfe
      | notNum => exact Or.inr rfl
      | num n => rw [hid, hs] at hfe; cases hfe
  · rintro ⟨e, he, hbad⟩
    refine ⟨e, he, ?_⟩
    rcases hbad with hid | hs
    · rw [hid]; cases e.score <;> rfl
    · rw [hs]; cases e.id <;> rfl

theorem filterParseEntries_eq_none_iff (entries : List FilterEntry) :
    filterParseEntries entries = none ↔ ∃ e ∈ entries, e.id = none := by
  unfold filterParseEntries
  rw [optMapList_eq_none_iff]
  constructor
  · rintro ⟨e, he, hfe⟩
    refine ⟨e, he, ?_⟩
    cases hid : e.id with
    | none => rfl
    | some i => rw [hid] at hfe; cases hfe
  · rintro ⟨e, he, hid⟩
    exact ⟨e, he, by rw [hid]; rfl⟩

/-! ## Claim theorems -/

/-- C5: for every chunk whose reasoning-service call raises, the filter
produces exactly the fallback verdict list for that chunk (is_relevant true
for every item), failed_batches is one larger than it would be had the call
responded, and total_batches is unaffected by the failure. -/
theorem filter_transport_failure_fallback
    (papers : List ArxivPaper) (bs : Nat) (oracle : Nat → LLMResult FilterResp)
    (i : Nat) (chunk : List ArxivPaper) (r : FilterResp)
    (hnd : (papers.map (fun p => p.arxiv_id)).Nodup)
    (hc : (chunks bs papers).get? i = some chunk)
    (ho : oracle i = .raise) :
    filterChunkVerdicts (paperMapOf papers) (oracle i) chunk
        = chunk.map (fun p => FilteredPaper.mk p true)
      ∧ (filter_papers papers bs oracle).failed_batches
          = (filter_papers papers bs
              (fun j => if j = i then .respond r else oracle j)).failed_batches + 1
      ∧ (filter_papers papers bs oracle).total_batches
          = (filter_papers papers bs
              (fun j => if j = i then .respond r else oracle j)).total_batches := by
  have hsub : chunk.Sublist papers := sublist_of_mem_chunks (mem_of_get?_chunks hc)
  refine ⟨?_, ?_, rfl⟩
  · rw [ho]
    exact filterChunkVerdicts_raise papers chunk hnd hsub
  · have hi : i < (chunks bs papers).length := by
      by_contra hle
      push_neg at hle
      rw [List.get?_eq_none.mpr hle] at hc
      cases hc
    exact countFailedChunks_update oracle
      (fun j => if j = i then .respond r else oracle j) i (chunks bs papers) 0
      (Nat.zero_le i) (by omega) ho (by simp [isRaiseF]) (fun j hj => by simp [hj])

/-- C5 witness: a single one-paper chunk whose call raises. -/
theorem filter_transport_failure_fallback_witness :
    filterChunkVerdicts (paperMapOf [paperA]) LLMResult.raise [paperA]
        = [FilteredPaper.mk paperA true]
      ∧ (filter_papers [paperA] 1 (fun _ => LLMResult.raise)).failed_batches
          = (filter_papers [paperA] 1
              (fun j => if j = 0 then .respond (.arr []) else LLMResult.raise)).failed_batches
              + 1 := by
  have h := filter_transport_failure_fallback [paperA] 1 (fun _ => LLMResult.raise) 0
    [paperA] (.arr []) (by decide) rfl rfl
  exact ⟨h.1, h.2.1⟩

/-- C6: every score the scoring stage produces, parsed or fallback, lies in
the range 1 to 100. -/
theorem scorer_score_bound
    (papers : List ArxivPaper) (bs : Nat) (oracle : Nat → LLMResult ScorerResp)
    (sp : ScoredPaper) (h : sp ∈ score_papers papers bs oracle) :
    1 ≤ sp.score ∧ sp.score ≤ 100 := by
  unfold score_papers at h
  have hmem := (sortByScoreDesc_perm _).mem_iff.mp h
  exact processScoreChunks_scores _ oracle _ 0 sp hmem

/-- C6 witness: the fallback verdict of a failed one-paper batch. -/
theorem scorer_score_bound_witness :
    1 ≤ (ScoredPaper.mk paperA 50 "").score
      ∧ (ScoredPaper.mk paperA 50 "").score ≤ 100 :=
  scorer_score_bound [paperA] 1 (fun _ => LLMResult.raise)
    (ScoredPaper.mk paperA 50 "") (by decide)

/-- C2 counterexample: with batch size 1, the first-chunk response names the
identity "b" of the second chunk; the filter then emits three verdicts for a
two-paper input (paper b is judged twice), refuting that
len(verdicts) == len(input) holds regardless of response shape. -/
theorem cross_chunk_identity_breaks_totality :
    (filter_papers [paperA, paperB] 1 cexFilterOracle).papers.length = 3
      ∧ [paperA, paperB].length = 2 := by
  decide

/-- C2 amended: one verdict per input item holds for both the filter and
the scorer provided every per-batch dictionary only names identities of its
own chunk or identities unknown to the whole input (the code looks
identities up in a map of the whole input, not of the chunk). -/
theorem batched_totality_of_same_chunk_responses
    (papers : List ArxivPaper) (bs : Nat)
    (fo : Nat → LLMResult FilterResp) (so : Nat → LLMResult ScorerResp)
    (hbs : 0 < bs)
    (hnd : (papers.map (fun p => p.arxiv_id)).Nodup)
    (hf : ∀ i c, (chunks bs papers).get? i = some c →
      ∀ k ∈ dictKeys (filter_batch (fo i) c).1,
        k ∈ c.map (fun p => p.arxiv_id) ∨ k ∉ papers.map (fun p => p.arxiv_id))
    (hs : ∀ i c, (chunks bs papers).get? i = some c →
      ∀ k ∈ dictKeys (score_batch (so i) c),
        k ∈ c.map (fun p => p.arxiv_id) ∨ k ∉ papers.map (fun p => p.arxiv_id)) :
    (filter_papers papers bs fo).papers.length = papers.length
      ∧ (score_papers papers bs so).length = papers.length := by
  have hsub : ∀ c ∈ chunks bs papers, c.Sublist papers :=
    fun c hc => sublist_of_mem_chunks hc
  constructor
  · show (processFilterChunks (paperMapOf papers) fo 0 (chunks bs papers)).length = _
    rw [processFilterChunks_length papers fo hnd (chunks bs papers) 0 hsub
      (fun j c hc => by simpa using hf j c hc)]
    exact sum_chunk_lengths bs papers hbs
  · unfold score_papers
    rw [(sortByScoreDesc_perm _).length_eq]
    rw [processScoreChunks_length papers so hnd (chunks bs papers) 0 hsub
      (fun j c hc => by simpa using hs j c hc)]
    exact sum_chunk_lengths bs papers hbs

/-- C2 witness: a one-paper input whose single batch raises in both stages. -/
theorem batched_totality_witness :
    (filter_papers [paperA] 1 (fun _ => LLMResult.raise)).papers.length = 1
      ∧ (score_papers [paperA] 1 (fun _ => LLMResult.raise)).length = 1 := by
  have h := batched_totality_of_same_chunk_responses [paperA] 1
    (fun _ => LLMResult.raise) (fun _ => LLMResult.raise)
    (by decide) (by decide)
    (by
      intro i c hc k hk
      match i with
      | 0 =>
        have hchunks : chunks 1 [paperA] = [[paperA]] := rfl
        rw [hchunks] at hc
        have hc2 : [paperA] = c := by simpa using hc
        subst hc2
        have hk2 : k ∈ ["a"] := hk
        simp only [List.mem_singleton] at hk2
        subst hk2
        left
        simp [paperA]
      | i + 1 => exact Option.noConfusion hc)
    (by
      intro i c hc k hk
      match i with
      | 0 =>
        have hchunks : chunks 1 [paperA] = [[paperA]] := rfl
        rw [hchunks] at hc
        have hc2 : [paperA] = c := by simpa using hc
        subst hc2
        have hk2 : k ∈ ["a"] := hk
        simp only [List.mem_singleton] at hk2
        subst hk2
        left
        simp [paperA]
      | i + 1 => exact Option.noConfusion hc)
  exact h

theorem dictGet_paperMapOf_mem {papers : List ArxivPaper} {k : String}
    {p : ArxivPaper} (h : dictGet (paperMapOf papers) k = some p) : p ∈ papers := by
  have h1 := mem_dictOf (dictGet_some_mem h)
  obtain ⟨q, hq, he⟩ := List.mem_map.mp h1
  have : q = p := congrArg Prod.snd he
  exact this ▸ hq

/-- C3 counterexample: in a decodable two-entry array whose second entry has
a non-numeric score, the perfectly well-formed first entry ("a", score 90)
does not keep its parsed verdict: the whole batch is replaced by fallback
and "a" maps to 50, not 90. -/
theorem malformed_entry_poisons_whole_batch :
    dictGet (scorer_parse_batch_response cexMalformedResp [paperA, paperB]) "a"
        = some ((50 : Int), "")
      ∧ ((50 : Int), "") ≠ ((90 : Int), "") := by
  decide

/-- C3 amended: for a decodable array, (a) one malformed entry (missing id
or non-numeric score) makes the entire chunk fall back; for well-formed
arrays, (b) verdicts only name papers of the whole input (unknown
identities are ignored), (c) an entry whose identity belongs to any input
paper (not only the current chunk) is accepted with its parsed verdict,
and (d) an item absent from the array receives the fallback alone. -/
theorem parse_acceptance_semantics_amended
    (papers chunk : List ArxivPaper) (entries : List ScoreEntry)
    (kvs : List (String × (Int × String)))
    (hnd : (papers.map (fun p => p.arxiv_id)).Nodup)
    (hsub : chunk.Sublist papers) :
    ((∃ e ∈ entries, e.id = none ∨ e.score = .notNum) →
      scorer_parse_batch_response (.arr entries) chunk = scoreFallbackDict chunk)
    ∧ (∀ v ∈ scoreChunkVerdicts (paperMapOf papers) (.respond (.arr entries)) chunk,
        v.paper ∈ papers)
    ∧ (scoreParseEntries entries = some kvs →
        ∀ q ∈ papers, ∀ s j, dictGet (dictOf kvs) q.arxiv_id = some (s, j) →
          ScoredPaper.mk q s j
            ∈ scoreChunkVerdicts (paperMapOf papers) (.respond (.arr entries)) chunk)
    ∧ (scoreParseEntries entries = some kvs →
        ∀ p ∈ chunk, keyMem (dictOf kvs) p.arxiv_id = false →
          ScoredPaper.mk p 50 ""
            ∈ scoreChunkVerdicts (paperMapOf papers) (.respond (.arr entries)) chunk) := by
  refine ⟨?_, ?_, ?_, ?_⟩
  · intro hbad
    simp only [scorer_parse_batch_response]
    rw [(scoreParseEntries_eq_none_iff entries).mpr hbad]
  · intro v hv
    rcases mem_chunkVerdicts hv with ⟨kv, _, p, hp, hvp⟩ | ⟨p, hp, hvp⟩
    · rw [hvp]
      exact dictGet_paperMapOf_mem hp
    · rw [hvp]
      exact hsub.mem hp
  · intro hparse q hq s j hget
    have hd : score_batch (.respond (.arr entries)) chunk = dictOf kvs := by
      simp only [score_batch, scorer_parse_batch_response, hparse]
    unfold scoreChunkVerdicts chunkVerdicts
    rw [hd]
    apply List.mem_append_left
    apply List.mem_filterMap.mpr
    refine ⟨(q.arxiv_id, (s, j)), dictGet_some_mem hget, ?_⟩
    rw [dictGet_paperMapOf papers q hnd hq]
    rfl
  · intro hparse p hp hkm
    have hd : score_batch (.respond (.arr entries)) chunk = dictOf kvs := by
      simp only [score_batch, scorer_parse_batch_response, hparse]
    unfold scoreChunkVerdicts chunkVerdicts
    rw [hd]
    apply List.mem_append_right
    apply List.mem_map.mpr
    refine ⟨p, List.mem_filter.mpr ⟨hp, ?_⟩, rfl⟩
    rw [hkm]
    rfl

/-- C3 witness: a single well-formed entry for paper a is accepted with its
clamped score and an absent paper keeps its lone fallback. -/
theorem parse_acceptance_witness :
    ScoredPaper.mk paperA 90 ""
        ∈ scoreChunkVerdicts (paperMapOf [paperA, paperB])
            (.respond (.arr [{ id := some "a", score := .num 90, justification := none }]))
            [paperA, paperB]
      ∧ ScoredPaper.mk paperB 50 ""
        ∈ scoreChunkVerdicts (paperMapOf [paperA, paperB])
            (.respond (.arr [{ id := some "a", score := .num 90, justification := none }]))
            [paperA, paperB] := by
  have h := parse_acceptance_semantics_amended [paperA, paperB] [paperA, paperB]
    [{ id := some "a", score := .num 90, justification := none }]
    [("a", ((90 : Int), ""))] (by decide) (List.Sublist.refl _)
  refine ⟨?_, ?_⟩
  · exact h.2.2.1 rfl paperA (by simp) 90 "" (by decide)
  · exact h.2.2.2 rfl paperB (by simp) (by decide)

/-- C4 counterexample: a chunk whose response holds no decodable payload
gets every item the fallback verdict, but failed_batches stays 0 — the
parse failure is not counted like a transport failure. -/
theorem parse_failure_not_counted :
    (filter_papers [paperA] 1 (fun _ => .respond .undecodable)).failed_batches = 0
      ∧ (filter_papers [paperA] 1 (fun _ => .respond .undecodable)).papers
          = [FilteredPaper.mk paperA true] := by
  decide

/-- C4 amended: on an undecodable response every item of the chunk receives
the fallback verdict (for the filter and the scorer alike), but the batch
is not flagged failed: the filter failed_batches count is unchanged
compared to any other response, and the scorer tracks no counters. -/
theorem parse_failure_fallback_without_increment
    (papers : List ArxivPaper) (bs : Nat) (oracle : Nat → LLMResult FilterResp)
    (i : Nat) (chunk : List ArxivPaper) (scall : LLMResult ScorerResp)
    (hnd : (papers.map (fun p => p.arxiv_id)).Nodup)
    (hc : (chunks bs papers).get? i = some chunk)
    (ho : oracle i = .respond .undecodable)
    (hsc : scall = .respond .undecodable) :
    filterChunkVerdicts (paperMapOf papers) (oracle i) chunk
        = chunk.map (fun p => FilteredPaper.mk p true)
      ∧ (filter_batch (oracle i) chunk).2 = false
      ∧ (∀ r2 : FilterResp, (filter_papers papers bs oracle).failed_batches
          = (filter_papers papers bs
              (fun j => if j = i then .respond r2 else oracle j)).failed_batches)
      ∧ scoreChunkVerdicts (paperMapOf papers) scall chunk
          = chunk.map (fun p => ScoredPaper.mk p 50 "") := by
  have hsub : chunk.Sublist papers := sublist_of_mem_chunks (mem_of_get?_chunks hc)
  refine ⟨?_, ?_, ?_, ?_⟩
  · rw [ho]
    exact filterChunkVerdicts_undecodable papers chunk hnd hsub
  · rw [ho]
    rfl
  · intro r2
    apply countFailedChunks_congr
    intro j _
    by_cases hj : j = i
    · subst hj
      rw [ho]
      simp [isRaiseF]
    · simp [hj]
  · rw [hsc]
    exact scoreChunkVerdicts_undecodable papers chunk hnd hsub

/-- C4 witness: the one-chunk instance with an undecodable response. -/
theorem parse_failure_fallback_witness :
    filterChunkVerdicts (paperMapOf [paperA]) (.respond .undecodable) [paperA]
        = [FilteredPaper.mk paperA true]
      ∧ (filter_papers [paperA] 1 (fun _ => .respond .undecodable)).failed_batches
          = (filter_papers [paperA] 1
              (fun j => if j = 0 then .respond (.arr []) else .respond .undecodable)).failed_batches := by
  have h := parse_failure_fallback_without_increment [paperA] 1
    (fun _ => .respond .undecodable) 0 [paperA] (.respond .undecodable)
    (by decide) rfl rfl rfl
  exact ⟨h.1, h.2.2.1 (.arr [])⟩

/-- C7 counterexample: two papers submitted in order a, b tie at score 70,
but the response lists b first; the scorer verdict list, and hence the
selection, orders b before a — ties follow response entry order, not batch
submission order. -/
theorem tie_order_follows_response_order :
    thresholdSelect (score_papers [paperA, paperB] 2 cexTieOracle) 0 2
        = [ScoredPaper.mk paperB 70 "", ScoredPaper.mk paperA 70 ""]
      ∧ [ScoredPaper.mk paperB 70 "", ScoredPaper.mk paperA 70 ""]
          ≠ [ScoredPaper.mk paperA 70 "", ScoredPaper.mk paperB 70 ""] := by
  decide

/-- C7 amended: the selection keeps exactly the verdicts at or above the
threshold from the stably score-descending-sorted verdict list, truncated
to max_items; ties preserve the scorer pre-sort verdict order (per-chunk
response entry order, then fallback items in batch order), which matches
batch submission order only when responses follow it; the concrete spec
example with scores 90, 40, 70, threshold 50 and top-1 selects exactly A. -/
theorem threshold_select_amended (l : List ScoredPaper) (thr : Int) (k : Nat) :
    (sortByScoreDesc l).Perm l
      ∧ (sortByScoreDesc l).Pairwise (fun a b => b.score ≤ a.score)
      ∧ (∀ s : Int, (sortByScoreDesc l).filter (fun p => p.score == s)
          = l.filter (fun p => p.score == s))
      ∧ (∀ x ∈ thresholdSelect (sortByScoreDesc l) thr k, thr ≤ x.score)
      ∧ (thresholdSelect (sortByScoreDesc l) thr k).length ≤ k
      ∧ (thresholdSelect (sortByScoreDesc l) thr k).Pairwise
          (fun a b => b.score ≤ a.score)
      ∧ thresholdSelect (sortByScoreDesc
          [ScoredPaper.mk paperA 90 "", ScoredPaper.mk paperB 40 "",
           ScoredPaper.mk paperC 70 ""]) 50 1 = [ScoredPaper.mk paperA 90 ""] := by
  refine ⟨sortByScoreDesc_perm l, sortByScoreDesc_sorted l,
    sortByScoreDesc_stable l, ?_, ?_, ?_, by decide⟩
  · intro x hx
    have hf := List.mem_of_mem_take hx
    have := List.mem_filter.mp hf
    exact of_decide_eq_true this.2
  · exact List.length_take_le k _
  · have hsl : thresholdSelect (sortByScoreDesc l) thr k |>.Sublist (sortByScoreDesc l) := by
      unfold thresholdSelect
      exact (List.take_sublist _ _).trans (List.filter_sublist _)
    exact (sortByScoreDesc_sorted l).sublist hsl

/-- C7 witness: every selected verdict clears the threshold in the spec
example instance. -/
theorem threshold_select_witness :
    (50 : Int) ≤ (ScoredPaper.mk paperA 90 "").score
      ∧ thresholdSelect (sortByScoreDesc
          [ScoredPaper.mk paperA 90 "", ScoredPaper.mk paperB 40 "",
           ScoredPaper.mk paperC 70 ""]) 50 1 = [ScoredPaper.mk paperA 90 ""] := by
  have h := threshold_select_amended
    [ScoredPaper.mk paperA 90 "", ScoredPaper.mk paperB 40 "",
     ScoredPaper.mk paperC 70 ""] 50 1
  exact ⟨h.2.2.2.1 (ScoredPaper.mk paperA 90 "") (by decide), h.2.2.2.2.2.2⟩

/-! ## Pagination lemmas for C8 -/

theorem searchGo_count_le (pages : Nat → List ArxivPaper) (sd ed : Int)
    (catF : Option (List String)) :
    ∀ (fuel idx : Nat), (searchGo pages sd ed catF fuel idx).2 ≤ fuel := by
  intro fuel
  induction fuel with
  | zero => intro idx; simp [searchGo]
  | succ n ih =>
    intro idx
    simp only [searchGo]
    cases hem : (pages idx).isEmpty with
    | true => simp
    | false =>
      simp only [Bool.false_eq_true, if_false]
      by_cases hold : minPublished (pages idx) < sd
      · simp [hold]
      · simp only [hold, if_false]
        have := ih (idx + 1)
        omega

theorem searchGo_window (pages : Nat → List ArxivPaper) (sd ed : Int)
    (catF : Option (List String)) :
    ∀ (fuel idx : Nat) (p : ArxivPaper),
      p ∈ (searchGo pages sd ed catF fuel idx).1 →
        sd ≤ p.published ∧ p.published ≤ ed := by
  have hmatch : ∀ (ps : List ArxivPaper) (p : ArxivPaper),
      p ∈ pageMatches sd ed catF ps → sd ≤ p.published ∧ p.published ≤ ed := by
    intro ps p hp
    have h2 := (List.mem_filter.mp hp).2
    rw [Bool.and_eq_true] at h2
    have h3 := h2.1
    unfold dateInWindow at h3
    rw [Bool.and_eq_true] at h3
    exact ⟨of_decide_eq_true h3.1, of_decide_eq_true h3.2⟩
  intro fuel
  induction fuel with
  | zero => intro idx p hp; simp [searchGo] at hp
  | succ n ih =>
    intro idx p hp
    simp only [searchGo] at hp
    cases hem : (pages idx).isEmpty with
    | true => rw [hem] at hp; simp at hp
    | false =>
      rw [hem] at hp
      simp only [Bool.false_eq_true, if_false] at hp
      by_cases hold : minPublished (pages idx) < sd
      · rw [if_pos hold] at hp
        exact hmatch (pages idx) p hp
      · rw [if_neg hold] at hp
        simp only [List.mem_append] at hp
        rcases hp with hp | hp
        · exact hmatch (pages idx) p hp
        · exact ih (idx + 1) p hp

/-- C8: the discovery pagination requests at most max_batches pages, every
candidate it returns was published inside the window, a topic stops after
one request on an empty page, and stops after the current page as soon as
the oldest item of that page precedes the window start. -/
theorem discovery_pagination_bounds (pages : Nat → List ArxivPaper)
    (sd ed : Int) (catF : Option (List String)) (maxB : Nat) :
    (search_arxiv_with_date_range pages sd ed catF maxB).2 ≤ maxB
      ∧ (∀ p ∈ (search_arxiv_with_date_range pages sd ed catF maxB).1,
          sd ≤ p.published ∧ p.published ≤ ed)
      ∧ (∀ fuel idx, pages idx = [] →
          searchGo pages sd ed catF (fuel + 1) idx = ([], 1))
      ∧ (∀ fuel idx, pages idx ≠ [] → minPublished (pages idx) < sd →
          searchGo pages sd ed catF (fuel + 1) idx
            = (pageMatches sd ed catF (pages idx), 1)) := by
  refine ⟨searchGo_count_le pages sd ed catF maxB 0,
    fun p hp => searchGo_window pages sd ed catF maxB 0 p hp, ?_, ?_⟩
  · intro fuel idx hempty
    simp [searchGo, hempty]
  · intro fuel idx hne hold
    have hem : (pages idx).isEmpty = false := by
      cases hpages : pages idx with
      | nil => exact absurd hpages hne
      | cons q qs => simp [hpages]
    simp only [searchGo]
    rw [hem]
    simp only [Bool.false_eq_true, if_false]
    rw [if_pos hold]

/-- C8 witness: an always-empty corpus source with a five-page budget. -/
theorem discovery_pagination_witness :
    (search_arxiv_with_date_range (fun _ => []) 0 0 none 5).2 ≤ 5
      ∧ searchGo (fun _ => []) (0 : Int) (0 : Int) none 1 0 = ([], 1) :=
  ⟨(discovery_pagination_bounds (fun _ => []) 0 0 none 5).1,
   (discovery_pagination_bounds (fun _ => []) 0 0 none 5).2.2.1 0 0 rfl⟩

set_option maxRecDepth 8000 in
/-- C9 counterexample: on a parse failure (undecodable payload) the
analysis is still produced, but its justification is the empty string, not
the fixed "Analysis failed" marker, and its summary is empty, not a prefix
of the abstract. -/
theorem analyzer_parse_failure_fields :
    (analyze_paper paperA 70 cexFeedback "" (.respond .undecodable)).score_justification
        = ""
      ∧ (analyze_paper paperA 70 cexFeedback "" (.respond .undecodable)).summary = ""
      ∧ "" ≠ "Analysis failed"
      ∧ paperA.abstract.take 200 ≠ "" := by
  decide

/-- C9 amended: the analysis step is total; on a raised call it returns
exactly the documented fallback (initial score, "Analysis failed" marker,
abstract prefix, joined authors, untouched feedback); on a parse failure
it also keeps the initial score, the joined author list and the untouched
feedback, but summary and justification are empty strings. -/
theorem analyzer_totality_amended (paper : ArxivPaper) (initial_score : Int)
    (fb : CommunityFeedback) (paper_content : String)
    (call : LLMResult AnalyzerResp) :
    (call = .raise → analyze_paper paper initial_score fb paper_content call =
        { paper := paper, score := initial_score
          score_justification := "Analysis failed"
          summary := paper.abstract.take 200
          authors_affiliations := joinAuthors paper.authors
          community_feedback := fb.feedback_summary
          paper_content_summary := "" })
      ∧ (call = .respond .undecodable →
          (analyze_paper paper initial_score fb paper_content call).score = initial_score
          ∧ (analyze_paper paper initial_score fb paper_content call).score_justification = ""
          ∧ (analyze_paper paper initial_score fb paper_content call).summary = ""
          ∧ (analyze_paper paper initial_score fb paper_content call).authors_affiliations
              = joinAuthors paper.authors
          ∧ (analyze_paper paper initial_score fb paper_content call).community_feedback
              = fb.feedback_summary) := by
  constructor
  · intro h
    subst h
    rfl
  · intro h
    subst h
    exact ⟨rfl, rfl, rfl, rfl, rfl⟩

/-- C9 witness: both failure modes at a concrete paper. -/
theorem analyzer_totality_witness :
    analyze_paper paperA 70 cexFeedback "" LLMResult.raise =
        { paper := paperA, score := 70
          score_justification := "Analysis failed"
          summary := paperA.abstract.take 200
          authors_affiliations := joinAuthors paperA.authors
          community_feedback := cexFeedback.feedback_summary
          paper_content_summary := "" }
      ∧ (analyze_paper paperA 70 cexFeedback "" (.respond .undecodable)).score = 70 := by
  have h1 := analyzer_totality_amended paperA 70 cexFeedback "" LLMResult.raise
  have h2 := analyzer_totality_amended paperA 70 cexFeedback "" (.respond .undecodable)
  exact ⟨h1.1 rfl, (h2.2 rfl).1⟩

/-- C10: a feed entry with an absent or unparseable published timestamp is
still turned into a candidate whose published time is the current time, so
it passes the discovery date-window filter exactly when the current moment
lies inside the window. -/
theorem malformed_date_defaults_to_now (now sd ed : Int) (e : FeedEntry)
    (hid : entryArxivId e ≠ "")
    (hdate : e.published = .absent ∨ e.published = .malformed) :
    (parse_entry now e).isSome = true
      ∧ ∀ p, parse_entry now e = some p →
          p.published = now
          ∧ (dateInWindow sd ed p.published = true ↔ sd ≤ now ∧ now ≤ ed) := by
  have hpd : parse_date now e.published = now := by
    rcases hdate with h | h <;> rw [h] <;> rfl
  unfold parse_entry
  rw [if_neg hid]
  refine ⟨rfl, ?_⟩
  intro p hp
  simp only [Option.some_inj] at hp
  have hrec : p.published = now := by
    have hproj := congrArg ArxivPaper.published hp
    simp only at hproj
    rw [← hproj, hpd]
  refine ⟨hrec, ?_⟩
  rw [hrec]
  unfold dateInWindow
  rw [Bool.and_eq_true]
  simp [decide_eq_true_eq]

/-- C10 witness: a concrete malformed-date entry at time 100 and the window
from 0 to 200. -/
theorem malformed_date_witness :
    (parse_entry 100 cexMalformedEntry).isSome = true
      ∧ ∃ p, parse_entry 100 cexMalformedEntry = some p ∧ p.published = 100 := by
  have h := malformed_date_defaults_to_now 100 0 200 cexMalformedEntry
    (by decide) (Or.inr rfl)
  refine ⟨h.1, ?_⟩
  cases hp : parse_entry 100 cexMalformedEntry with
  | none =>
    rw [hp] at h
    simp at h
  | some p => exact ⟨p, rfl, (h.2 p hp).1⟩

/-- C1: the scoring stage returns a bare sorted verdict list carrying no
batch counters: a run whose single batch raised and a run whose single
batch succeeded with the same scores return identical values, so the
failed and total batch counts which run_workflow reads off the scoring
result — and which the no-paper-met-threshold status message embeds,
witnessed here by the Scorer errors line — cannot be recovered from what
score_papers actually returns. In the source, run_workflow accesses
score_result.papers, .failed_batches and .total_batches on that plain
list, raising AttributeError; models.py declares the intended ScoreResult
record that nothing ever constructs. -/
theorem scorer_output_carries_no_batch_counters :
    score_papers [paperA, paperB] 2 (fun _ => LLMResult.raise)
        = score_papers [paperA, paperB] 2 (fun _ => .respond (.arr
            [{ id := some "a", score := .num 50, justification := some "" },
             { id := some "b", score := .num 50, justification := some "" }]))
      ∧ "Scorer errors: 1/2 batches failed"
          ∈ statusLines "No papers met the score threshold (60)." 5 0 3 1 2 := by
  constructor
  · decide
  · decide

end ArxivAgent
